import Mathlib

/-!
Verification of the appointment-booking logic of the `main` Django app
(hospital appointment management).  The definitions below are a shallow
embedding of `src/main/models.py`:

* `Schedule.available_slots`  ← `Schedule.available_slots` (models.py 277-290),
* `Appointment.clean`         ← `Appointment.clean` (models.py 363-386),
* `Appointment.save`          ← `Appointment.save` (models.py 398-400),
* `AppStep` / `ReachableDB`   ← the operations that modify the appointment
  table: object creation through `Model.save` (views.py `create_appointment_htmx`,
  admin change forms) and the admin bulk actions `confirm_appointments` /
  `cancel_appointments` / `mark_as_completed` (admin.py 376-389), which use
  `queryset.update` and therefore bypass `full_clean` but are still subject to
  the conditional unique constraint `unique_appointment_time`
  (models.py 355-361).

Modelling conventions: a time of day is its number of minutes since midnight
(`Nat`; Python `datetime.time` values in this app are minute-granular and
compare lexicographically, which agrees with the minute count); a calendar
date is its proleptic ordinal as in Python's `date.toordinal`, so Python's
`date.weekday()` (Monday = 0) becomes `(ord + 6) % 7` because ordinal 1 is a
Monday; primary keys are `Option Nat` (`none` = unsaved object, as in
`self.pk if self.pk else None`).
-/

namespace Main

/-- A calendar date, identified by its proleptic ordinal
(Python `date.toordinal`). -/
structure Date where
  ord : Nat
deriving DecidableEq

/-- Python's `date.weekday()`: Monday = 0 … Sunday = 6.  Ordinal 1
(0001-01-01) is a Monday. -/
def Date.weekday (d : Date) : Nat := (d.ord + 6) % 7

/-- `Appointment.STATUS_CHOICES` (models.py 302-306).  `completed` is not a
declared choice but is written into the column by the admin bulk action
`mark_as_completed` (admin.py 386-389), which bypasses validation. -/
inductive Status where
  | pending
  | confirmed
  | cancelled
  | completed
deriving DecidableEq

/-- `status in ['pending', 'confirmed']`, the status set used both by
`Appointment.clean` and by the conditional unique constraint. -/
def isActive (s : Status) : Bool :=
  match s with
  | .pending => true
  | .confirmed => true
  | _ => false

/-- The `Schedule` model (models.py 224-290): doctor, weekday 0-6, start and
end times (minutes since midnight), working flag, appointment duration in
minutes.  Fields irrelevant to the claims (cabinet, reception type,
timestamps) are omitted. -/
structure Schedule where
  doctor : Nat
  day_of_week : Nat
  start_time : Nat
  end_time : Nat
  is_working : Bool
  appointment_duration : Nat
deriving DecidableEq

/-- The `Appointment` model (models.py 301-423), restricted to the fields the
booking logic reads: primary key, doctor, patient, date, time and status. -/
structure Appointment where
  id : Option Nat
  doctor : Nat
  patient : Nat
  appointment_date : Date
  appointment_time : Nat
  status : Status
deriving DecidableEq

/-- The three `ValidationError` causes raised by `Appointment.clean`. -/
inductive CleanError where
  | slotTaken
  | pastDate
  | outOfHours
deriving DecidableEq

/-- The loop of `Schedule.available_slots` (models.py 286-288):
`while current + duration <= end: append current; current += duration`.
The Python loop terminates only for a positive duration (the model's
validators force `appointment_duration ∈ [10,120]`); the `0 < dur` guard
makes the function total without changing its value on any input the
source can reach. -/
def slotsGo (dur endT cur : Nat) : List Nat :=
  if _h : 0 < dur ∧ cur + dur ≤ endT then
    cur :: slotsGo dur endT (cur + dur)
  else
    []
termination_by endT - cur
decreasing_by
  simp_wf
  omega

/-- `Schedule.available_slots` (models.py 277-290): the list of slot
start-times from `start_time`, stepping by `appointment_duration`, while the
slot still ends no later than `end_time`. -/
def Schedule.available_slots (s : Schedule) : List Nat :=
  slotsGo s.appointment_duration s.end_time s.start_time

/-- The filter of `Appointment.clean`'s conflict query (models.py 366-371):
same doctor, date and time, status pending or confirmed, excluding the row
with the object's own primary key (`exclude(pk=self.pk if self.pk else
None)` excludes nothing for an unsaved object). -/
def Appointment.conflicting (apps : List Appointment) (a : Appointment) :
    List Appointment :=
  apps.filter fun b =>
    b.doctor == a.doctor && b.appointment_date == a.appointment_date &&
      b.appointment_time == a.appointment_time && isActive b.status &&
      (match a.id with
       | none => true
       | some p => !(b.id == some p))

/-- `self.doctor.schedules.filter(day_of_week=day_of_week, is_working=True)
.first()` (models.py 383).  The unique constraint
`unique_schedule_per_day` on (doctor, day_of_week) means at most one row can
match, so `first()` does not depend on the queryset ordering. -/
def findSchedule (scheds : List Schedule) (doc dow : Nat) : Option Schedule :=
  scheds.find? fun s => s.doctor == doc && s.day_of_week == dow && s.is_working

/-- `Appointment.clean` (models.py 363-386), the three checks in source
order: (1) if the object's status is pending/confirmed and a conflicting
pending/confirmed appointment exists at the same (doctor, date, time), raise
(SlotTaken); (2) if the date is before today, raise (PastDate); (3) if a
working schedule exists for the date's weekday and the time is outside
`[start_time, end_time]`, raise (OutOfHours).  (`if self.appointment_date:`
is always true for the non-null date field.)  Returns the first error
raised, or `none` when validation passes. -/
def Appointment.clean (scheds : List Schedule) (apps : List Appointment)
    (today : Date) (a : Appointment) : Option CleanError :=
  if isActive a.status && !(Appointment.conflicting apps a).isEmpty then
    some .slotTaken
  else if a.appointment_date.ord < today.ord then
    some .pastDate
  else
    match findSchedule scheds a.doctor a.appointment_date.weekday with
    | some s =>
        if s.start_time ≤ a.appointment_time ∧ a.appointment_time ≤ s.end_time then
          none
        else
          some .outOfHours
    | none => none

/-- A fresh primary key: one more than the largest key in the table. -/
def nextId (apps : List Appointment) : Nat :=
  apps.foldr (fun b m => max (b.id.getD 0 + 1) m) 1

/-- Row persistence after validation: an unsaved object is inserted with a
fresh primary key; a saved object replaces the row carrying its key. -/
def persist (apps : List Appointment) (a : Appointment) : List Appointment :=
  match a.id with
  | none => apps ++ [{ a with id := some (nextId apps) }]
  | some p => apps.map fun b => if b.id == some p then a else b

/-- `Appointment.save` (models.py 398-400): `full_clean` first — which runs
`Appointment.clean` — and persist only when it raises nothing.  `none`
models the `ValidationError` propagating to the caller. -/
def Appointment.save (scheds : List Schedule) (apps : List Appointment)
    (today : Date) (a : Appointment) : Option (List Appointment) :=
  match Appointment.clean scheds apps today a with
  | some _ => none
  | none => some (persist apps a)

/-- Same (doctor, date, time) slot. -/
def sameSlot (b a : Appointment) : Prop :=
  b.doctor = a.doctor ∧ b.appointment_date = a.appointment_date ∧
    b.appointment_time = a.appointment_time

instance (b a : Appointment) : Decidable (sameSlot b a) := by
  unfold sameSlot
  infer_instance

/-- The property enforced by the conditional unique constraint
`unique_appointment_time` (models.py 355-361): no two rows with status in
{pending, confirmed} share a (doctor, date, time). -/
def atMostOneActive (apps : List Appointment) : Prop :=
  List.Pairwise
    (fun b c => ¬(isActive b.status = true ∧ isActive c.status = true ∧ sameSlot b c))
    apps

/-- Database well-formedness carried through the reachability proof: the
unique-constraint property, every stored row has a primary key, and primary
keys are distinct. -/
def DBInv (apps : List Appointment) : Prop :=
  atMostOneActive apps ∧ (∀ b ∈ apps, b.id.isSome = true) ∧
    (apps.map fun b => b.id).Nodup

/-- The semantic content of `Appointment.conflicting … ≠ []`: some stored
row, other than the object's own, occupies the same slot with an active
status. -/
def HasActiveConflict (apps : List Appointment) (a : Appointment) : Prop :=
  ∃ b ∈ apps, sameSlot b a ∧ isActive b.status = true ∧
    (∀ p, a.id = some p → b.id ≠ some p)

instance (apps : List Appointment) (a : Appointment) :
    Decidable (HasActiveConflict apps a) := by
  unfold HasActiveConflict
  infer_instance

/-- One transition of the appointment table.  `create` and `editSave` go
through `Appointment.save` (hence `full_clean`); `bulk` is a
`queryset.update(status=…)` from the admin actions, which skips validation
but must still satisfy the partial unique index `unique_appointment_time`,
and changes nothing but statuses. -/
inductive AppStep (scheds : List Schedule) :
    List Appointment → List Appointment → Prop where
  | create (today : Date) (a : Appointment) (apps : List Appointment) :
      a.id = none →
      Appointment.clean scheds apps today a = none →
      AppStep scheds apps (apps ++ [{ a with id := some (nextId apps) }])
  | editSave (today : Date) (a r : Appointment) (l1 l2 : List Appointment) :
      a.id = r.id →
      Appointment.clean scheds (l1 ++ r :: l2) today a = none →
      AppStep scheds (l1 ++ r :: l2) (l1 ++ a :: l2)
  | bulk (apps apps' : List Appointment) :
      List.Forall₂
        (fun b c => c.id = b.id ∧ c.doctor = b.doctor ∧
          c.appointment_date = b.appointment_date ∧
          c.appointment_time = b.appointment_time) apps apps' →
      atMostOneActive apps' →
      AppStep scheds apps apps'

/-- Appointment-table states reachable from the empty table. -/
inductive ReachableDB (scheds : List Schedule) : List Appointment → Prop where
  | empty : ReachableDB scheds []
  | step {apps apps' : List Appointment} :
      ReachableDB scheds apps → AppStep scheds apps apps' →
      ReachableDB scheds apps'

/-- The working-hours condition of `Appointment.clean`'s third check, as a
standalone test: vacuously true when no working schedule exists for the
weekday (the source skips the check in that case). -/
def hoursOk (scheds : List Schedule) (a : Appointment) : Bool :=
  match findSchedule scheds a.doctor a.appointment_date.weekday with
  | some s =>
      decide (s.start_time ≤ a.appointment_time ∧ a.appointment_time ≤ s.end_time)
  | none => true

/-! ### Characterization of the slot computation -/

theorem slotsGo_eq_range_map (dur endT : Nat) (hd : 0 < dur) :
    ∀ cur, slotsGo dur endT cur =
      (List.range ((endT - cur) / dur)).map fun k => cur + k * dur := by
  have main : ∀ m cur, endT - cur ≤ m →
      slotsGo dur endT cur =
        (List.range ((endT - cur) / dur)).map fun k => cur + k * dur := by
    intro m
    induction m with
    | zero =>
        intro cur hm
        rw [slotsGo]
        have h1 : ¬(0 < dur ∧ cur + dur ≤ endT) := by omega
        rw [dif_neg h1]
        have h2 : endT - cur = 0 := by omega
        simp [h2]
    | succ m ih =>
        intro cur hm
        rw [slotsGo]
        by_cases hc : cur + dur ≤ endT
        · rw [dif_pos ⟨hd, hc⟩, ih (cur + dur) (by omega)]
          have hle : dur ≤ endT - cur := by omega
          have hsub : endT - cur - dur = endT - (cur + dur) := by omega
          have hdiv : (endT - cur) / dur = (endT - (cur + dur)) / dur + 1 := by
            rw [Nat.div_eq_sub_div hd hle, hsub]
          rw [hdiv, List.range_succ_eq_map]
          simp only [List.map_cons, List.map_map]
          have hfun : ((fun k => cur + k * dur) ∘ Nat.succ) =
              fun k => cur + dur + k * dur := by
            funext k
            simp only [Function.comp]
            rw [Nat.succ_mul]
            omega
          rw [hfun]
          simp
        · rw [dif_neg (by omega)]
          have h2 : (endT - cur) / dur = 0 := Nat.div_eq_of_lt (by omega)
          simp [h2]
  intro cur
  exact main (endT - cur) cur le_rfl

theorem mem_slotsGo (dur endT cur t : Nat) (hd : 0 < dur) :
    t ∈ slotsGo dur endT cur ↔
      ∃ k, t = cur + k * dur ∧ cur + (k + 1) * dur ≤ endT := by
  rw [slotsGo_eq_range_map dur endT hd]
  simp only [List.mem_map, List.mem_range]
  constructor
  · rintro ⟨k, hk, rfl⟩
    refine ⟨k, rfl, ?_⟩
    have hmul : (k + 1) * dur ≤ endT - cur := (Nat.le_div_iff_mul_le hd).mp hk
    have hpos : 0 < (k + 1) * dur := Nat.mul_pos (Nat.succ_pos k) hd
    omega
  · rintro ⟨k, rfl, hk⟩
    refine ⟨k, ?_, rfl⟩
    have hmul : (k + 1) * dur ≤ endT - cur := by omega
    exact (Nat.le_div_iff_mul_le hd).mpr hmul

theorem length_slotsGo (dur endT cur : Nat) (hd : 0 < dur) :
    (slotsGo dur endT cur).length = (endT - cur) / dur := by
  rw [slotsGo_eq_range_map dur endT hd]
  simp

theorem slotsGo_pairwise (dur endT cur : Nat) (hd : 0 < dur) :
    (slotsGo dur endT cur).Pairwise (· < ·) := by
  rw [slotsGo_eq_range_map dur endT hd]
  refine List.Pairwise.map _ ?_ (List.pairwise_lt_range _)
  intro a b hab
  have := Nat.mul_lt_mul_of_pos_right hab hd
  omega

/-! ### Characterization of the booking validation -/

theorem isActive_iff (s : Status) :
    isActive s = true ↔ s = .pending ∨ s = .confirmed := by
  cases s <;> simp [isActive]

theorem conflictPred_iff (a b : Appointment) :
    (b.doctor == a.doctor && b.appointment_date == a.appointment_date &&
      b.appointment_time == a.appointment_time && isActive b.status &&
      (match a.id with
       | none => true
       | some p => !(b.id == some p))) = true ↔
    sameSlot b a ∧ isActive b.status = true ∧
      ∀ p, a.id = some p → b.id ≠ some p := by
  cases ha : a.id with
  | none =>
      simp [sameSlot, and_assoc]
  | some p =>
      simp [sameSlot, and_assoc]

theorem conflicting_eq_nil_iff (apps : List Appointment) (a : Appointment) :
    Appointment.conflicting apps a = [] ↔ ¬HasActiveConflict apps a := by
  unfold Appointment.conflicting HasActiveConflict
  rw [List.filter_eq_nil_iff]
  constructor
  · rintro h ⟨b, hb, hslot, hact, hid⟩
    exact h b hb ((conflictPred_iff a b).mpr ⟨hslot, hact, hid⟩)
  · intro h b hb hpred
    obtain ⟨hslot, hact, hid⟩ := (conflictPred_iff a b).mp hpred
    exact h ⟨b, hb, hslot, hact, hid⟩

theorem hoursOk_iff (scheds : List Schedule) (a : Appointment) :
    hoursOk scheds a = true ↔
      ∀ s, findSchedule scheds a.doctor a.appointment_date.weekday = some s →
        s.start_time ≤ a.appointment_time ∧ a.appointment_time ≤ s.end_time := by
  unfold hoursOk
  cases hs : findSchedule scheds a.doctor a.appointment_date.weekday with
  | none => simp
  | some s => simp

/-- `Appointment.clean` with each test replaced by its declarative
counterpart: the three checks in source order — slot conflict, past date,
working hours. -/
theorem clean_cases (scheds : List Schedule) (apps : List Appointment)
    (today : Date) (a : Appointment) :
    Appointment.clean scheds apps today a =
      if isActive a.status = true ∧ HasActiveConflict apps a then
        some .slotTaken
      else if a.appointment_date.ord < today.ord then
        some .pastDate
      else if hoursOk scheds a = true then
        none
      else
        some .outOfHours := by
  have hcond : (isActive a.status && !(Appointment.conflicting apps a).isEmpty) = true ↔
      isActive a.status = true ∧ HasActiveConflict apps a := by
    rw [Bool.and_eq_true]
    apply and_congr_right
    intro _
    rw [Bool.not_eq_true']
    constructor
    · intro h
      by_contra hnot
      have hnil : Appointment.conflicting apps a = [] :=
        (conflicting_eq_nil_iff apps a).mpr hnot
      rw [hnil] at h
      simp at h
    · intro hhas
      cases hE : (Appointment.conflicting apps a).isEmpty with
      | false => rfl
      | true =>
          exact absurd ((conflicting_eq_nil_iff apps a).mp (List.isEmpty_iff.mp hE))
            (not_not_intro hhas)
  unfold Appointment.clean
  by_cases h1 : isActive a.status = true ∧ HasActiveConflict apps a
  · rw [if_pos (hcond.mpr h1), if_pos h1]
  · rw [if_neg (fun hb => h1 (hcond.mp hb)), if_neg h1]
    by_cases h2 : a.appointment_date.ord < today.ord
    · rw [if_pos h2, if_pos h2]
    · rw [if_neg h2, if_neg h2]
      unfold hoursOk
      cases hs : findSchedule scheds a.doctor a.appointment_date.weekday with
      | none => simp
      | some s =>
          by_cases h3 : s.start_time ≤ a.appointment_time ∧ a.appointment_time ≤ s.end_time
          · simp [h3]
          · simp [h3]

/-- First check: the result is SlotTaken exactly when the proposed row is
pending/confirmed and an active conflict exists. -/
theorem clean_eq_slotTaken_iff (scheds : List Schedule) (apps : List Appointment)
    (today : Date) (a : Appointment) :
    Appointment.clean scheds apps today a = some .slotTaken ↔
      isActive a.status = true ∧ HasActiveConflict apps a := by
  rw [clean_cases]
  split_ifs with h1 h2 h3 <;> simp_all

/-- Second check: the result is PastDate exactly when the first check passed
and the date is strictly before today. -/
theorem clean_eq_pastDate_iff (scheds : List Schedule) (apps : List Appointment)
    (today : Date) (a : Appointment) :
    Appointment.clean scheds apps today a = some .pastDate ↔
      ¬(isActive a.status = true ∧ HasActiveConflict apps a) ∧
        a.appointment_date.ord < today.ord := by
  rw [clean_cases]
  split_ifs with h1 h2 h3 <;> simp_all

/-- Third check: the result is OutOfHours exactly when the first two checks
passed, a working schedule exists for the weekday, and the time falls outside
its `[start_time, end_time]`. -/
theorem clean_eq_outOfHours_iff (scheds : List Schedule) (apps : List Appointment)
    (today : Date) (a : Appointment) :
    Appointment.clean scheds apps today a = some .outOfHours ↔
      ¬(isActive a.status = true ∧ HasActiveConflict apps a) ∧
        ¬a.appointment_date.ord < today.ord ∧
        ∃ s, findSchedule scheds a.doctor a.appointment_date.weekday = some s ∧
          ¬(s.start_time ≤ a.appointment_time ∧ a.appointment_time ≤ s.end_time) := by
  rw [clean_cases]
  split_ifs with h1 h2 h3
  · simp_all
  · simp_all
  · constructor
    · intro h
      exact absurd h (by simp)
    · rintro ⟨-, -, s, hs, hout⟩
      exact absurd (((hoursOk_iff scheds a).mp h3) s hs) hout
  · constructor
    · intro _
      refine ⟨h1, h2, ?_⟩
      unfold hoursOk at h3
      cases hs : findSchedule scheds a.doctor a.appointment_date.weekday with
      | none => rw [hs] at h3; simp at h3
      | some s =>
          refine ⟨s, rfl, ?_⟩
          rw [hs] at h3
          simpa using h3
    · intro _
      rfl

/-- Validation passes exactly when all three checks do. -/
theorem clean_eq_none_iff (scheds : List Schedule) (apps : List Appointment)
    (today : Date) (a : Appointment) :
    Appointment.clean scheds apps today a = none ↔
      ¬(isActive a.status = true ∧ HasActiveConflict apps a) ∧
        ¬a.appointment_date.ord < today.ord ∧
        ∀ s, findSchedule scheds a.doctor a.appointment_date.weekday = some s →
          s.start_time ≤ a.appointment_time ∧ a.appointment_time ≤ s.end_time := by
  rw [clean_cases]
  split_ifs with h1 h2 h3
  · simp_all
  · simp_all
  · exact iff_of_true rfl ⟨h1, h2, (hoursOk_iff scheds a).mp h3⟩
  · constructor
    · intro h
      exact absurd h (by simp)
    · rintro ⟨-, -, hall⟩
      exact absurd ((hoursOk_iff scheds a).mpr hall) h3

/-! ### Preservation of the uniqueness invariant -/

theorem sameSlot_comm (b a : Appointment) : sameSlot b a ↔ sameSlot a b := by
  unfold sameSlot
  constructor <;> rintro ⟨h1, h2, h3⟩ <;> exact ⟨h1.symm, h2.symm, h3.symm⟩

theorem lt_nextId (apps : List Appointment) :
    ∀ b ∈ apps, b.id.getD 0 < nextId apps := by
  induction apps with
  | nil => simp
  | cons x xs ih =>
      intro b hb
      have hx : nextId (x :: xs) = max (x.id.getD 0 + 1) (nextId xs) := rfl
      rcases List.mem_cons.mp hb with rfl | hb
      · omega
      · have := ih b hb
        omega

theorem DBInv_nil : DBInv [] := by
  refine ⟨List.Pairwise.nil, by simp, by simp⟩

theorem DBInv_create (scheds : List Schedule) (apps : List Appointment)
    (today : Date) (a : Appointment) (hinv : DBInv apps) (hid : a.id = none)
    (hc : Appointment.clean scheds apps today a = none) :
    DBInv (apps ++ [{ a with id := some (nextId apps) }]) := by
  obtain ⟨hone, hsome, hnodup⟩ := hinv
  obtain ⟨hnoconf, -, -⟩ := (clean_eq_none_iff scheds apps today a).mp hc
  refine ⟨?_, ?_, ?_⟩
  · unfold atMostOneActive at hone ⊢
    rw [List.pairwise_append]
    refine ⟨hone, by simp, ?_⟩
    intro b hb c hcmem
    have hca : c = { a with id := some (nextId apps) } := by simpa using hcmem
    subst hca
    rintro ⟨hactb, hacta, hslot⟩
    apply hnoconf
    refine ⟨hacta, b, hb, ?_, hactb, ?_⟩
    · exact hslot
    · intro p hp
      rw [hid] at hp
      exact absurd hp (by simp)
  · intro b hb
    rcases List.mem_append.mp hb with h | h
    · exact hsome b h
    · have hba : b = { a with id := some (nextId apps) } := by simpa using h
      subst hba
      rfl
  · rw [List.map_append, List.nodup_append]
    refine ⟨hnodup, by simp, ?_⟩
    intro x hx
    simp only [List.map_cons, List.map_nil, List.mem_singleton]
    intro hxeq
    obtain ⟨b, hb, hbid⟩ := List.mem_map.mp hx
    have hlt := lt_nextId apps b hb
    rw [hbid, hxeq] at hlt
    simp at hlt

theorem DBInv_editSave (scheds : List Schedule) (l1 l2 : List Appointment)
    (today : Date) (a r : Appointment) (hinv : DBInv (l1 ++ r :: l2))
    (ha : a.id = r.id)
    (hc : Appointment.clean scheds (l1 ++ r :: l2) today a = none) :
    DBInv (l1 ++ a :: l2) := by
  obtain ⟨hone, hsome, hnodup⟩ := hinv
  have hmap_old : (l1 ++ r :: l2).map (fun b => b.id) =
      l1.map (fun b => b.id) ++ r.id :: l2.map (fun b => b.id) := by simp
  have hmap_new : (l1 ++ a :: l2).map (fun b => b.id) =
      l1.map (fun b => b.id) ++ r.id :: l2.map (fun b => b.id) := by simp [ha]
  have hrid_not : r.id ∉ l1.map (fun b => b.id) ++ l2.map (fun b => b.id) := by
    have hn := hnodup
    rw [hmap_old, List.nodup_middle] at hn
    exact (List.nodup_cons.mp hn).1
  have hkey : isActive a.status = true →
      ∀ b ∈ l1 ++ l2, ¬(isActive b.status = true ∧ sameSlot b a) := by
    rintro hact b hb ⟨hbact, hbslot⟩
    obtain ⟨hnoconf, -, -⟩ := (clean_eq_none_iff scheds _ today a).mp hc
    apply hnoconf
    have hbmem : b ∈ l1 ++ r :: l2 := by
      rcases List.mem_append.mp hb with h | h
      · exact List.mem_append.mpr (Or.inl h)
      · exact List.mem_append.mpr (Or.inr (List.mem_cons_of_mem r h))
    refine ⟨hact, b, hbmem, hbslot, hbact, ?_⟩
    intro p hp hbid
    apply hrid_not
    have hbin : b.id ∈ l1.map (fun b => b.id) ++ l2.map (fun b => b.id) := by
      rcases List.mem_append.mp hb with h | h
      · exact List.mem_append.mpr (Or.inl (List.mem_map_of_mem _ h))
      · exact List.mem_append.mpr (Or.inr (List.mem_map_of_mem _ h))
    have hrb : r.id = b.id := by rw [← ha, hp, hbid]
    rw [hrb]
    exact hbin
  refine ⟨?_, ?_, ?_⟩
  · unfold atMostOneActive at hone ⊢
    rw [List.pairwise_append] at hone ⊢
    obtain ⟨P1, Pc, X⟩ := hone
    refine ⟨P1, ?_, ?_⟩
    · rw [List.pairwise_cons]
      refine ⟨?_, (List.pairwise_cons.mp Pc).2⟩
      rintro c hc2 ⟨hacta, hactc, hslot⟩
      exact hkey hacta c (List.mem_append.mpr (Or.inr hc2))
        ⟨hactc, (sameSlot_comm a c).mp hslot⟩
    · intro b hb c hcmem
      rcases List.mem_cons.mp hcmem with rfl | hc2
      · rintro ⟨hactb, hacta, hslot⟩
        exact hkey hacta b (List.mem_append.mpr (Or.inl hb)) ⟨hactb, hslot⟩
      · exact X b hb c (List.mem_cons_of_mem r hc2)
  · intro b hb
    rcases List.mem_append.mp hb with h | h
    · exact hsome b (List.mem_append.mpr (Or.inl h))
    · rcases List.mem_cons.mp h with rfl | h2
      · rw [ha]
        exact hsome r (List.mem_append.mpr (Or.inr (List.mem_cons_self r l2)))
      · exact hsome b (List.mem_append.mpr (Or.inr (List.mem_cons_of_mem r h2)))
  · rw [hmap_new]
    rw [hmap_old] at hnodup
    exact hnodup

theorem forall2_map_id {apps apps' : List Appointment}
    (h : List.Forall₂
      (fun b c => c.id = b.id ∧ c.doctor = b.doctor ∧
        c.appointment_date = b.appointment_date ∧
        c.appointment_time = b.appointment_time) apps apps') :
    apps'.map (fun b => b.id) = apps.map (fun b => b.id) := by
  induction h with
  | nil => rfl
  | cons h1 _ ih => simp [h1.1, ih]

theorem DBInv_bulk {apps apps' : List Appointment} (hinv : DBInv apps)
    (h : List.Forall₂
      (fun b c => c.id = b.id ∧ c.doctor = b.doctor ∧
        c.appointment_date = b.appointment_date ∧
        c.appointment_time = b.appointment_time) apps apps')
    (hone : atMostOneActive apps') : DBInv apps' := by
  obtain ⟨-, hsome, hnodup⟩ := hinv
  have hmap := forall2_map_id h
  refine ⟨hone, ?_, by rw [hmap]; exact hnodup⟩
  intro b hb
  have hbin : b.id ∈ apps'.map (fun b => b.id) := List.mem_map_of_mem _ hb
  rw [hmap] at hbin
  obtain ⟨c, hcmem, hcid⟩ := List.mem_map.mp hbin
  rw [← hcid]
  exact hsome c hcmem

theorem DBInv_of_step (scheds : List Schedule) {apps apps' : List Appointment}
    (hinv : DBInv apps) (hstep : AppStep scheds apps apps') : DBInv apps' := by
  cases hstep with
  | create today a apps hid hc => exact DBInv_create scheds apps today a hinv hid hc
  | editSave today a r l1 l2 ha hc =>
      exact DBInv_editSave scheds l1 l2 today a r hinv ha hc
  | bulk apps apps' hf hone => exact DBInv_bulk hinv hf hone

theorem DBInv_of_reachable (scheds : List Schedule) (apps : List Appointment)
    (h : ReachableDB scheds apps) : DBInv apps := by
  induction h with
  | empty => exact DBInv_nil
  | step _ hs ih => exact DBInv_of_step scheds ih hs

/-! ### The claims -/

/-- C1, counterexample: with an empty schedule table — and likewise with a
schedule row for the right weekday that has `is_working = False` — a proposed
appointment passes validation (`clean` raises nothing), although the claim
says it must fail with OutOfHours.  Date ordinal 10 falls on weekday 2 and
is today, so no other check interferes; the time 100 is even outside the
non-working row's hours. -/
theorem C1_counterexample :
    Appointment.clean [] [] ⟨10⟩ ⟨none, 1, 1, ⟨10⟩, 100, .pending⟩ = none ∧
      findSchedule [] 1 (Date.weekday ⟨10⟩) = none ∧
      Appointment.clean [⟨1, 2, 540, 720, false, 30⟩] [] ⟨10⟩
        ⟨none, 1, 1, ⟨10⟩, 100, .pending⟩ = none ∧
      findSchedule [⟨1, 2, 540, 720, false, 30⟩] 1 (Date.weekday ⟨10⟩) = none := by
  refine ⟨by decide, by decide, by decide, by decide⟩

/-- C1 (amended): when no working schedule exists for the appointment date's
weekday, `Appointment.clean` skips the working-hours check entirely — it can
never fail with OutOfHours; OutOfHours arises only when a working schedule
for that weekday exists and the time is outside its hours. -/
theorem C1_no_schedule_skips_hours_check (scheds : List Schedule)
    (apps : List Appointment) (today : Date) (a : Appointment)
    (h : findSchedule scheds a.doctor a.appointment_date.weekday = none) :
    Appointment.clean scheds apps today a ≠ some .outOfHours := by
  intro hcontra
  obtain ⟨-, -, s, hs, -⟩ :=
    (clean_eq_outOfHours_iff scheds apps today a).mp hcontra
  rw [h] at hs
  cases hs

/-- C1, witness for the amended theorem at a concrete input. -/
theorem C1_witness :
    Appointment.clean [] [] ⟨10⟩ ⟨none, 1, 1, ⟨10⟩, 100, .pending⟩ ≠
      some .outOfHours :=
  C1_no_schedule_skips_hours_check [] [] ⟨10⟩ ⟨none, 1, 1, ⟨10⟩, 100, .pending⟩
    (by decide)

/-- C2, counterexample: a request that is simultaneously past-dated (date
ordinal 9 < today's 10) and out-of-hours (a working schedule exists for
weekday 1 and the time 100 is outside `[540, 720]`) is rejected with
PastDate, not OutOfHours — the code checks SlotTaken first, then PastDate,
then OutOfHours, the reverse of the claimed order. -/
theorem C2_counterexample :
    Appointment.clean [⟨1, 1, 540, 720, true, 30⟩] [] ⟨10⟩
        ⟨none, 1, 1, ⟨9⟩, 100, .pending⟩ = some .pastDate ∧
      (Date.ord ⟨9⟩) < (Date.ord ⟨10⟩) ∧
      findSchedule [⟨1, 1, 540, 720, true, 30⟩] 1 (Date.weekday ⟨9⟩) =
        some ⟨1, 1, 540, 720, true, 30⟩ ∧
      ¬(540 ≤ 100 ∧ 100 ≤ 720) := by
  refine ⟨by decide, by decide, by decide, by decide⟩

/-- C2 (amended): `Appointment.clean` runs its three checks sequentially in
the order SlotTaken, then PastDate, then OutOfHours; for a request violating
several checks at once the reported rejection is the first failing check in
that order. -/
theorem C2_check_order (scheds : List Schedule) (apps : List Appointment)
    (today : Date) (a : Appointment) :
    (Appointment.clean scheds apps today a = some .slotTaken ↔
      isActive a.status = true ∧ HasActiveConflict apps a) ∧
    (Appointment.clean scheds apps today a = some .pastDate ↔
      ¬(isActive a.status = true ∧ HasActiveConflict apps a) ∧
        a.appointment_date.ord < today.ord) ∧
    (Appointment.clean scheds apps today a = some .outOfHours ↔
      ¬(isActive a.status = true ∧ HasActiveConflict apps a) ∧
        ¬a.appointment_date.ord < today.ord ∧
        ∃ s, findSchedule scheds a.doctor a.appointment_date.weekday = some s ∧
          ¬(s.start_time ≤ a.appointment_time ∧ a.appointment_time ≤ s.end_time)) :=
  ⟨clean_eq_slotTaken_iff scheds apps today a,
    clean_eq_pastDate_iff scheds apps today a,
    clean_eq_outOfHours_iff scheds apps today a⟩

/-- C3, counterexample: with the working schedule 09:00-12:00 (540-720),
duration 30, the times 555 (= 09:15, strictly between the slot boundaries
540 and 570) and 720 (= the schedule's end) are not slot start-times, yet
both pass validation — the code only checks membership in the closed
interval `[start_time, end_time]`, not membership in `available_slots`. -/
theorem C3_counterexample :
    (555 ∉ Schedule.available_slots ⟨1, 2, 540, 720, true, 30⟩) ∧
      Appointment.clean [⟨1, 2, 540, 720, true, 30⟩] [] ⟨10⟩
        ⟨none, 1, 1, ⟨10⟩, 555, .pending⟩ = none ∧
      (720 ∉ Schedule.available_slots ⟨1, 2, 540, 720, true, 30⟩) ∧
      Appointment.clean [⟨1, 2, 540, 720, true, 30⟩] [] ⟨10⟩
        ⟨none, 1, 1, ⟨10⟩, 720, .pending⟩ = none := by
  have hs : Schedule.available_slots ⟨1, 2, 540, 720, true, 30⟩ =
      [540, 570, 600, 630, 660, 690] := by
    show slotsGo 30 720 540 = [540, 570, 600, 630, 660, 690]
    rw [slotsGo_eq_range_map 30 720 (by decide) 540]
    decide
  refine ⟨?_, by decide, ?_, by decide⟩
  · rw [hs]
    decide
  · rw [hs]
    decide

/-- C3 (amended): when a working schedule exists for the weekday and the
earlier checks pass, validation accepts exactly the times in the closed
interval `[start_time, end_time]` — it does not restrict the time to the
slot start-times of `available_slots`, so times strictly between slot
boundaries, or equal to `end_time`, are accepted. -/
theorem C3_interval_acceptance (scheds : List Schedule)
    (apps : List Appointment) (today : Date) (a : Appointment) (s : Schedule)
    (hs : findSchedule scheds a.doctor a.appointment_date.weekday = some s)
    (h1 : ¬(isActive a.status = true ∧ HasActiveConflict apps a))
    (h2 : ¬a.appointment_date.ord < today.ord) :
    (Appointment.clean scheds apps today a = none ↔
      s.start_time ≤ a.appointment_time ∧ a.appointment_time ≤ s.end_time) ∧
    (Appointment.clean scheds apps today a = some .outOfHours ↔
      ¬(s.start_time ≤ a.appointment_time ∧ a.appointment_time ≤ s.end_time)) := by
  constructor
  · rw [clean_eq_none_iff]
    constructor
    · rintro ⟨-, -, hall⟩
      exact hall s hs
    · intro hb
      refine ⟨h1, h2, ?_⟩
      intro s' hs'
      rw [hs, Option.some.injEq] at hs'
      rw [← hs']
      exact hb
  · rw [clean_eq_outOfHours_iff]
    constructor
    · rintro ⟨-, -, s', hs', hout⟩
      rw [hs, Option.some.injEq] at hs'
      rw [← hs'] at hout
      exact hout
    · intro hout
      exact ⟨h1, h2, s, hs, hout⟩

/-- C3, witness for the amended theorem: the non-slot time 555 is accepted. -/
theorem C3_witness :
    Appointment.clean [⟨1, 2, 540, 720, true, 30⟩] [] ⟨10⟩
      ⟨none, 1, 1, ⟨10⟩, 555, .pending⟩ = none :=
  (C3_interval_acceptance [⟨1, 2, 540, 720, true, 30⟩] [] ⟨10⟩
      ⟨none, 1, 1, ⟨10⟩, 555, .pending⟩ ⟨1, 2, 540, 720, true, 30⟩
      (by decide) (by decide) (by decide)).1.mpr (by decide)

/-- C4 (confirmed): for a schedule with positive duration and start < end,
`available_slots` contains exactly the times `start + k*duration` for the
`k` with `start + (k+1)*duration ≤ end`, in strictly increasing order; and
on the concrete schedule 09:00-12:00 with duration 30 it returns
[09:00, 09:30, 10:00, 10:30, 11:00, 11:30] (in minutes since midnight). -/
theorem C4_slots_exact :
    (∀ s : Schedule, 0 < s.appointment_duration → s.start_time < s.end_time →
      (∀ t, t ∈ s.available_slots ↔
          ∃ k, t = s.start_time + k * s.appointment_duration ∧
            s.start_time + (k + 1) * s.appointment_duration ≤ s.end_time) ∧
        s.available_slots.Pairwise (· < ·)) ∧
    Schedule.available_slots ⟨1, 0, 540, 720, true, 30⟩ =
      [540, 570, 600, 630, 660, 690] := by
  constructor
  · intro s hd _
    constructor
    · intro t
      exact mem_slotsGo s.appointment_duration s.end_time s.start_time t hd
    · exact slotsGo_pairwise s.appointment_duration s.end_time s.start_time hd
  · show slotsGo 30 720 540 = [540, 570, 600, 630, 660, 690]
    rw [slotsGo_eq_range_map 30 720 (by decide) 540]
    decide

/-- C4, witness: the slot characterization applied to a concrete schedule. -/
theorem C4_witness :
    570 ∈ Schedule.available_slots ⟨1, 0, 540, 720, true, 30⟩ :=
  ((C4_slots_exact.1 ⟨1, 0, 540, 720, true, 30⟩ (by decide) (by decide)).1
    570).mpr ⟨1, by decide, by decide⟩

/-- C5 (confirmed): for start ≤ end, positive duration and (end - start) an
exact multiple of the duration, `available_slots` has exactly
`(end - start) / duration` entries.  (The count formula holds even without
the divisibility hypothesis.) -/
theorem C5_slot_count (s : Schedule) (hd : 0 < s.appointment_duration)
    (_hse : s.start_time ≤ s.end_time)
    (_hdvd : (s.end_time - s.start_time) % s.appointment_duration = 0) :
    s.available_slots.length =
      (s.end_time - s.start_time) / s.appointment_duration :=
  length_slotsGo s.appointment_duration s.end_time s.start_time hd

/-- C5, witness: 6 slots on the 09:00-12:00, 30-minute schedule. -/
theorem C5_witness :
    (Schedule.available_slots ⟨1, 0, 540, 720, true, 30⟩).length =
      (720 - 540) / 30 :=
  C5_slot_count ⟨1, 0, 540, 720, true, 30⟩ (by decide) (by decide) (by decide)

/-- C6 (confirmed): for positive duration, every slot ends no later than the
schedule's end, and when `end - start < duration` the slot list is empty. -/
theorem C6_slot_bounds (s : Schedule) (hd : 0 < s.appointment_duration) :
    (∀ t ∈ s.available_slots, t + s.appointment_duration ≤ s.end_time) ∧
    (s.end_time - s.start_time < s.appointment_duration →
      s.available_slots = []) := by
  constructor
  · intro t ht
    obtain ⟨k, rfl, hk⟩ :=
      (mem_slotsGo s.appointment_duration s.end_time s.start_time t hd).mp ht
    have hexp : (k + 1) * s.appointment_duration =
        k * s.appointment_duration + s.appointment_duration := by ring
    omega
  · intro hlt
    show slotsGo s.appointment_duration s.end_time s.start_time = []
    rw [slotsGo_eq_range_map s.appointment_duration s.end_time hd,
      Nat.div_eq_of_lt hlt]
    rfl

/-- C6, witness: a 20-minute window with 30-minute slots yields no slot. -/
theorem C6_witness :
    (∀ t ∈ Schedule.available_slots ⟨1, 0, 540, 560, true, 30⟩, t + 30 ≤ 560) ∧
      (560 - 540 < 30 → Schedule.available_slots ⟨1, 0, 540, 560, true, 30⟩ = []) :=
  C6_slot_bounds ⟨1, 0, 540, 560, true, 30⟩ (by decide)

/-- C7, counterexample: a past-dated request whose slot is also occupied by
a pending appointment is rejected with SlotTaken, not PastDate — the
conflict check runs first — so "rejects with PastDate exactly those requests
whose date is strictly before today" fails as a biconditional over all
requests. -/
theorem C7_counterexample :
    Appointment.clean [] [⟨some 1, 1, 1, ⟨9⟩, 600, .pending⟩] ⟨10⟩
        ⟨none, 1, 2, ⟨9⟩, 600, .pending⟩ = some .slotTaken ∧
      Appointment.clean [] [⟨some 1, 1, 1, ⟨9⟩, 600, .pending⟩] ⟨10⟩
        ⟨none, 1, 2, ⟨9⟩, 600, .pending⟩ ≠ some .pastDate ∧
      (Date.ord ⟨9⟩) < (Date.ord ⟨10⟩) := by
  refine ⟨by decide, by decide, by decide⟩

/-- C7 (amended): among requests that pass the slot-conflict check (which
runs first), validation rejects with PastDate exactly those whose date is
strictly before today; and a request dated today is never rejected with
PastDate. -/
theorem C7_past_date_iff (scheds : List Schedule) (apps : List Appointment)
    (today : Date) (a : Appointment)
    (h1 : ¬(isActive a.status = true ∧ HasActiveConflict apps a)) :
    (Appointment.clean scheds apps today a = some .pastDate ↔
      a.appointment_date.ord < today.ord) ∧
    (a.appointment_date = today →
      Appointment.clean scheds apps today a ≠ some .pastDate) := by
  constructor
  · rw [clean_eq_pastDate_iff]
    exact and_iff_right h1
  · intro heq hcontra
    obtain ⟨-, hlt⟩ := (clean_eq_pastDate_iff scheds apps today a).mp hcontra
    rw [heq] at hlt
    omega

/-- C7, witness for the amended theorem: a conflict-free past-dated request
is rejected with PastDate. -/
theorem C7_witness :
    Appointment.clean [] [] ⟨10⟩ ⟨none, 1, 1, ⟨9⟩, 600, .pending⟩ =
      some .pastDate :=
  (C7_past_date_iff [] [] ⟨10⟩ ⟨none, 1, 1, ⟨9⟩, 600, .pending⟩
    (by decide)).1.mpr (by decide)

/-- C8 (confirmed): a proposed (unsaved, pending) appointment fails with
SlotTaken exactly when some existing appointment at the same
(doctor, date, time) has status pending or confirmed — in particular a
second sequential booking of an identical slot whose first booking is left
pending is rejected, and cancelled appointments at the slot cause no
rejection. -/
theorem C8_slot_taken_iff (scheds : List Schedule) (apps : List Appointment)
    (today : Date) (a : Appointment) (hid : a.id = none)
    (hst : a.status = .pending) :
    Appointment.clean scheds apps today a = some .slotTaken ↔
      ∃ b ∈ apps, b.doctor = a.doctor ∧
        b.appointment_date = a.appointment_date ∧
        b.appointment_time = a.appointment_time ∧
        (b.status = .pending ∨ b.status = .confirmed) := by
  rw [clean_eq_slotTaken_iff]
  constructor
  · rintro ⟨-, b, hb, hslot, hact, -⟩
    exact ⟨b, hb, hslot.1, hslot.2.1, hslot.2.2, (isActive_iff _).mp hact⟩
  · rintro ⟨b, hb, hd, hdate, htime, hstat⟩
    refine ⟨by rw [hst]; rfl, b, hb, ⟨hd, hdate, htime⟩,
      (isActive_iff _).mpr hstat, ?_⟩
    intro p hp
    rw [hid] at hp
    exact absurd hp (by simp)

/-- C8, witness: the second of two sequential identical bookings, the first
left pending, is rejected with SlotTaken. -/
theorem C8_witness :
    Appointment.clean [] [⟨some 1, 1, 1, ⟨10⟩, 600, .pending⟩] ⟨10⟩
      ⟨none, 1, 2, ⟨10⟩, 600, .pending⟩ = some .slotTaken :=
  (C8_slot_taken_iff [] [⟨some 1, 1, 1, ⟨10⟩, 600, .pending⟩] ⟨10⟩
    ⟨none, 1, 2, ⟨10⟩, 600, .pending⟩ rfl rfl).mpr (by decide)

/-- C9 (confirmed): every appointment-table state reachable through the
repository's operations — validated saves (creation and edits) and admin
bulk status updates constrained by the partial unique index — has at most
one pending/confirmed appointment per (doctor, date, time); and any create
of a pending/confirmed appointment into an occupied slot is refused with
SlotTaken. -/
theorem C9_invariant (scheds : List Schedule) (apps : List Appointment)
    (h : ReachableDB scheds apps) :
    atMostOneActive apps ∧
      ∀ (today : Date) (a : Appointment), a.id = none →
        isActive a.status = true →
        (∃ b ∈ apps, sameSlot b a ∧ isActive b.status = true) →
        Appointment.clean scheds apps today a = some .slotTaken := by
  refine ⟨(DBInv_of_reachable scheds apps h).1, ?_⟩
  rintro today a hid hact ⟨b, hb, hslot, hbact⟩
  rw [clean_eq_slotTaken_iff]
  refine ⟨hact, b, hb, hslot, hbact, ?_⟩
  intro p hp
  rw [hid] at hp
  exact absurd hp (by simp)

/-- C9, witness: the invariant holds in the state reached by one successful
booking from the empty table. -/
theorem C9_witness :
    atMostOneActive [⟨some 1, 1, 1, ⟨10⟩, 600, Status.pending⟩] :=
  (C9_invariant [] [⟨some 1, 1, 1, ⟨10⟩, 600, Status.pending⟩]
    (ReachableDB.step ReachableDB.empty
      (AppStep.create ⟨10⟩ ⟨none, 1, 1, ⟨10⟩, 600, .pending⟩ [] rfl
        (by decide)))).1

/-- C10, counterexample: `save` of an appointment with status cancelled
succeeds at a slot already occupied by a pending appointment — the conflict
check in `clean` only runs for pending/confirmed objects — so "no other
pending/confirmed appointment shared its (doctor, date, time)" does not hold
for every successfully saved appointment. -/
theorem C10_counterexample :
    (Appointment.save [] [⟨some 1, 1, 1, ⟨10⟩, 600, .pending⟩] ⟨10⟩
        ⟨none, 1, 2, ⟨10⟩, 600, .cancelled⟩).isSome = true ∧
      isActive (Status.pending) = true ∧
      sameSlot ⟨some 1, 1, 1, ⟨10⟩, 600, .pending⟩
        ⟨none, 1, 2, ⟨10⟩, 600, .cancelled⟩ := by
  refine ⟨by decide, by decide, by decide⟩

/-- C10 (amended): `save` unconditionally runs the full validation and
persists only when it passes; hence every successfully saved appointment
had, at save time, a date not strictly before today and a time within the
working schedule's hours whenever one existed for its weekday; and whenever
the saved appointment itself was pending or confirmed, no other
pending/confirmed appointment shared its (doctor, date, time).  (A cancelled
appointment can be saved into an occupied slot.) -/
theorem C10_saved_implies_validated (scheds : List Schedule)
    (apps : List Appointment) (today : Date) (a : Appointment)
    (l : List Appointment)
    (hsave : Appointment.save scheds apps today a = some l) :
    Appointment.clean scheds apps today a = none ∧
    ¬a.appointment_date.ord < today.ord ∧
    (∀ s, findSchedule scheds a.doctor a.appointment_date.weekday = some s →
      s.start_time ≤ a.appointment_time ∧ a.appointment_time ≤ s.end_time) ∧
    (isActive a.status = true → ¬HasActiveConflict apps a) := by
  have hclean : Appointment.clean scheds apps today a = none := by
    unfold Appointment.save at hsave
    cases hcl : Appointment.clean scheds apps today a with
    | some e =>
        rw [hcl] at hsave
        cases hsave
    | none => rfl
  obtain ⟨h1, h2, h3⟩ := (clean_eq_none_iff scheds apps today a).mp hclean
  exact ⟨hclean, h2, h3, fun hact hconf => h1 ⟨hact, hconf⟩⟩

/-- C10, witness: a concrete successful save, with the validated facts. -/
theorem C10_witness :
    Appointment.clean [] [] ⟨10⟩ ⟨none, 1, 1, ⟨10⟩, 600, .pending⟩ = none :=
  (C10_saved_implies_validated [] [] ⟨10⟩ ⟨none, 1, 1, ⟨10⟩, 600, .pending⟩
    [⟨some 1, 1, 1, ⟨10⟩, 600, .pending⟩] (by decide)).1

end Main
